import Mathlib

/-!
Verification of the place-name redaction utility of the senate-publications
repository (`data_analysis/utils/clean_data.py`).

The development embeds the three functions of that module —
`find_matches_positions`, `define_place_type` and `replace_places_by_flag` —
as executable Lean definitions over `List Char` texts, together with a small
semantics for the fragment of Python regular expressions the module uses
(literal characters, `.`, character classes, concatenation, alternation,
greedy `?`, lazy `.*?`).  Pandas data frames are embedded as lists of records;
the Python `dict` keyed by match end offset is an association list whose
update-in-place/append behaviour mirrors CPython dict semantics.
-/

set_option maxRecDepth 10000

namespace CleanData

/-- Abstract syntax for the fragment of Python regular expressions used by
`clean_data.py`: the empty pattern, literal characters, the `.` wildcard,
character classes, concatenation, alternation, greedy `?`, and the lazy
`.*?`. -/
inductive Regex where
  | epsilon
  | char (c : Char)
  | any
  | cls (cs : List Char)
  | seq (r1 r2 : Regex)
  | alt (r1 r2 : Regex)
  | opt (r : Regex)
  | lazyStarAny
deriving DecidableEq, Repr

/-- All lengths of matches of `r` at the head of `cs`, in Python backtracking
priority order: the head of the list is the match the engine reports.
`.` does not match a newline; `r?` is greedy (tries `r` first); `.*?` is lazy
(tries the empty match first). -/
def lengths : Regex → List Char → List Nat
  | .epsilon, _ => [0]
  | .char c, cs =>
    match cs with
    | [] => []
    | d :: _ => if d = c then [1] else []
  | .any, cs =>
    match cs with
    | [] => []
    | d :: _ => if d = '\n' then [] else [1]
  | .cls l, cs =>
    match cs with
    | [] => []
    | d :: _ => if d ∈ l then [1] else []
  | .seq r1 r2, cs =>
    (lengths r1 cs).flatMap (fun l1 => (lengths r2 (cs.drop l1)).map (fun l2 => l1 + l2))
  | .alt r1 r2, cs => lengths r1 cs ++ lengths r2 cs
  | .opt r, cs => lengths r cs ++ [0]
  | .lazyStarAny, cs => List.range ((cs.takeWhile (fun c => c ≠ '\n')).length + 1)

/-- Python `re.search(pattern, s)` returning `match.start()`: the least
position at which the pattern can match (or `none`). -/
def searchStart (r : Regex) (cs : List Char) : Option Nat :=
  (List.range (cs.length + 1)).find? (fun i => !(lengths r (cs.drop i)).isEmpty)

/-- Python `re.search("^...", s) is not None` for a pattern anchored at the
start of the string: the pattern must match at position 0. -/
def matchesAt0 (r : Regex) (cs : List Char) : Bool :=
  !(lengths r cs).isEmpty

/-- The first match of `r` at a position `≥ p`: Python's scan step inside
`finditer`.  Returns the (start, end) pair of the reported match. -/
def findNext (r : Regex) (cs : List Char) (p : Nat) : Option (Nat × Nat) :=
  (List.range' p (cs.length + 1 - p)).findSome?
    (fun i => (lengths r (cs.drop i)).head?.map (fun l => (i, i + l)))

/-- Fuelled worker for `finditer`; the scan position strictly increases at
each step, so `cs.length + 1` units of fuel are enough. -/
def finditerAux (r : Regex) (cs : List Char) : Nat → Nat → List (Nat × Nat)
  | 0, _ => []
  | fuel + 1, p =>
    match findNext r cs p with
    | none => []
    | some (i, e) => (i, e) :: finditerAux r cs fuel (if e = i then i + 1 else e)

/-- Python `pattern.finditer(s)`: the leftmost, non-overlapping matches of the
pattern, as (start, end) pairs. -/
def finditer (r : Regex) (cs : List Char) : List (Nat × Nat) :=
  finditerAux r cs (cs.length + 1) 0

/-- One piece of a `base_regex` template: either fixed regex source or the
`{name_value}` substitution point. -/
inductive TItem where
  | re (r : Regex)
  | hole
deriving DecidableEq, Repr

/-- A `base_regex` template string, split at its `{name_value}` holes. -/
abbrev RTemplate := List TItem

/-- Interpolation of a candidate name into a pattern, as performed by
`base_regex.format(name_value=value_str)` followed by `re.compile`: the name's
characters are pasted into the regex source, so a `.` inside a name is the
wildcard, not a literal character.  (The model covers names whose only regex
metacharacter is `.`; real reference names are plain words.) -/
def nameToRegex (name : List Char) : Regex :=
  name.foldr (fun c acc => .seq (if c = '.' then .any else .char c) acc) .epsilon

def TItem.toRegex (name : List Char) : TItem → Regex
  | .re r => r
  | .hole => nameToRegex name

/-- Compiling a template against a concrete candidate name. -/
def instantiate (t : RTemplate) (name : List Char) : Regex :=
  t.foldr (fun it acc => .seq (it.toRegex name) acc) .epsilon

/-- A literal regex made of plain characters. -/
def chars (l : List Char) : Regex :=
  l.foldr (fun c acc => .seq (.char c) acc) .epsilon

/-- An entry of the `found_matches_pos` dictionary: `{"start": ..,
"end": .., "place_name": ..}`. -/
structure MatchPos where
  start : Nat
  end_ : Nat
  place_name : List Char
deriving DecidableEq, Repr

/-- CPython dict assignment `d[k] = v`: replace in place when the key is
present, append otherwise (insertion order is preserved). -/
def insertMatch (d : List (Nat × MatchPos)) (k : Nat) (v : MatchPos) :
    List (Nat × MatchPos) :=
  match d with
  | [] => [(k, v)]
  | (k', v') :: rest =>
    if k' = k then (k, v) :: rest else (k', v') :: insertMatch rest k v

/-- The body of the inner loop of `find_matches_positions`: record the match
`(start_pos, end_pos)` of candidate `value_str` unless an entry with the same
end offset and a strictly smaller start is already present. -/
def processMatch (value_str : List Char) (d : List (Nat × MatchPos))
    (sp : Nat × Nat) : List (Nat × MatchPos) :=
  let start_pos := sp.1
  let end_pos := sp.2
  match List.lookup end_pos d with
  | some existing =>
    if start_pos > existing.start then d
    else insertMatch d end_pos ⟨start_pos, end_pos, value_str⟩
  | none => insertMatch d end_pos ⟨start_pos, end_pos, value_str⟩

/-- The `found_matches_pos` dictionary built by `find_matches_positions`. -/
def find_matches_dict (search_text : List Char) (names_list : List (List Char))
    (base_regex : RTemplate) : List (Nat × MatchPos) :=
  names_list.foldl
    (fun d value_str =>
      (finditer (instantiate base_regex value_str) search_text).foldl
        (processMatch value_str) d)
    []

/-- `find_matches_positions` of `clean_data.py`: the values of the dictionary
keyed by match end offset. -/
def find_matches_positions (search_text : List Char)
    (names_list : List (List Char)) (base_regex : RTemplate) : List MatchPos :=
  (find_matches_dict search_text names_list base_regex).map (fun p => p.2)

/-- Python `str.lower()` restricted to the Latin alphabet used by the
repository's texts (ASCII letters and Spanish accented vowels and ñ/ü). -/
def pyLower (c : Char) : Char :=
  if 'A' ≤ c ∧ c ≤ 'Z' then Char.ofNat (c.toNat + 32)
  else if c = 'Á' then 'á'
  else if c = 'É' then 'é'
  else if c = 'Í' then 'í'
  else if c = 'Ó' then 'ó'
  else if c = 'Ú' then 'ú'
  else if c = 'Ñ' then 'ñ'
  else if c = 'Ü' then 'ü'
  else c

/-- `unidecode.unidecode` restricted to the same alphabet: strip the accents
of the Spanish lower-case vowels and of ñ/ü (upper-case letters have already
been lowered when `clean_data.py` applies it). -/
def pyUnidecode (c : Char) : Char :=
  if c = 'á' then 'a'
  else if c = 'é' then 'e'
  else if c = 'í' then 'i'
  else if c = 'ó' then 'o'
  else if c = 'ú' then 'u'
  else if c = 'ñ' then 'n'
  else if c = 'ü' then 'u'
  else c

/-- `unidecode(text.lower())`, the normalized search text of
`replace_places_by_flag` (line 120). -/
def normalizeText (text : List Char) : List Char :=
  text.map (fun c => pyUnidecode (pyLower c))

/-- The two place categories; `clean_data.py` stores them as the strings
`"city"` and `"estate"` in the `type` column. -/
inductive PlaceType where
  | city
  | estate
deriving DecidableEq, Repr

/-- A row of the `duplicate_replacements` frame: the inner merge of the city
and estate match frames on the `end` column (suffixes `_city`, `_estate`). -/
structure DupRow where
  start_city : Nat
  start_estate : Nat
  end_ : Nat
  place_name_city : List Char
  place_name_estate : List Char
deriving DecidableEq, Repr

/-- A row of the final `total_replacements` frame: `start`, `end`, `type`. -/
structure RepRow where
  start : Nat
  end_ : Nat
  type : PlaceType
deriving DecidableEq, Repr

/-- The context pattern `[mM]unicipios de .*? {name}` of
`define_place_type` (line 82); the name is interpolated as regex source. -/
def municipiosCue (name : List Char) : Regex :=
  .seq (.cls ['m', 'M'])
    (.seq (chars ("unicipios de ".toList))
      (.seq .lazyStarAny (.seq (.char ' ') (nameToRegex name))))

/-- The context pattern `[eE]stados de .*? {name}` of
`define_place_type` (line 85); the name is interpolated as regex source. -/
def estadosCue (name : List Char) : Regex :=
  .seq (.cls ['e', 'E'])
    (.seq (chars ("stados de ".toList))
      (.seq .lazyStarAny (.seq (.char ' ') (nameToRegex name))))

/-- `city_start` of `define_place_type` (lines 82–83): the start of the
leftmost occurrence of the "municipios de …" cue in `search_text[:row.end]`,
and −1 when the cue is absent. -/
def cityContextPos (row : DupRow) (search_text : List Char) : Int :=
  match searchStart (municipiosCue row.place_name_city) (search_text.take row.end_) with
  | none => -1
  | some i => (i : Int)

/-- `estate_start` of `define_place_type` (lines 85–86): as `cityContextPos`
but for the "estados de …" cue.  Note the source interpolates
`row.place_name_city` into this pattern as well. -/
def estateContextPos (row : DupRow) (search_text : List Char) : Int :=
  match searchStart (estadosCue row.place_name_city) (search_text.take row.end_) with
  | none => -1
  | some i => (i : Int)

/-- `define_place_type` of `clean_data.py` (lines 55–95): decide whether a
merged row is a city or an estate, then copy the matching `start` over. -/
def define_place_type (row : DupRow) (search_text : List Char) : RepRow :=
  let t : PlaceType :=
    if row.start_city < row.start_estate then .city
    else if row.start_estate < row.start_city then .estate
    else if cityContextPos row search_text > estateContextPos row search_text then .city
    else .estate
  { start := match t with
      | .city => row.start_city
      | .estate => row.start_estate,
    end_ := row.end_,
    type := t }

/-- One category's entry of the `inegi_replacements` dictionary: the keyword
arguments of `find_matches_positions` plus the `replacement` placeholder. -/
structure CategoryConfig where
  names_list : List (List Char)
  base_regex : RTemplate
  replacement : List Char

/-- The `inegi_replacements` dictionary: one configuration per category. -/
structure IneGiReplacements where
  city : CategoryConfig
  estate : CategoryConfig

def IneGiReplacements.get (ir : IneGiReplacements) : PlaceType → CategoryConfig
  | .city => ir.city
  | .estate => ir.estate

/-- The fast-path probe regex of `replace_places_by_flag` (line 115):
`[ ,](([eE]stados?|[mM]unicipios?) de|Ciudad |Distrito )`. -/
def cueRegex : Regex :=
  .seq (.cls [' ', ','])
    (.alt
      (.seq
        (.alt
          (.seq (.cls ['e', 'E']) (.seq (chars ("stado".toList)) (.opt (.char 's'))))
          (.seq (.cls ['m', 'M']) (.seq (chars ("unicipio".toList)) (.opt (.char 's')))))
        (chars (" de".toList)))
      (.alt (chars ("Ciudad ".toList)) (chars ("Distrito ".toList))))

/-- The false-positive guard regex of `replace_places_by_flag` (line 181):
`^[ ,]([eE]stados?|[mM]unicipios?|[A-ZÁÉÍÓÚ])` (anchored at the start of the
sliced substring). -/
def guardRegex : Regex :=
  .seq (.cls [' ', ','])
    (.alt
      (.seq (.cls ['e', 'E']) (.seq (chars ("stado".toList)) (.opt (.char 's'))))
      (.alt
        (.seq (.cls ['m', 'M']) (.seq (chars ("unicipio".toList)) (.opt (.char 's'))))
        (.cls ("ABCDEFGHIJKLMNOPQRSTUVWXYZÁÉÍÓÚ".toList))))

/-- Python slice `text[a:b]` for `0 ≤ a ≤ b` (the only shape the code uses). -/
def pySlice (text : List Char) (a b : Nat) : List Char :=
  (text.drop a).take (b - a)

/-- The body of the replacement loop of `replace_places_by_flag`
(lines 180–190), folded over `(clean_text, last_end)`. -/
def applyStep (text : List Char) (ir : IneGiReplacements)
    (acc : List Char × Nat) (row : RepRow) : List Char × Nat :=
  let upper_case := matchesAt0 guardRegex (pySlice text row.start row.end_)
  if upper_case then
    (acc.1 ++ pySlice text acc.2 row.start ++ (ir.get row.type).replacement, row.end_)
  else
    (acc.1 ++ pySlice text acc.2 row.end_, row.end_)

/-- Tagging a match frame with its category (`cities_df["type"] = "city"`,
etc.). -/
def tagRows (t : PlaceType) (l : List MatchPos) : List RepRow :=
  l.map (fun m => ⟨m.start, m.end_, t⟩)

/-- Lines 122–175 of `replace_places_by_flag` as a function of the normalized
search text: build the two match frames, merge them on `end`, resolve the
duplicates with `define_place_type`, concatenate with the unique rows of each
frame, and sort the result by `start`.  (Pandas sorts with an unstable
quicksort; the model uses insertion sort — the relative order of rows with
equal `start` is not relied upon anywhere.) -/
def total_replacements_of (search_text : List Char) (ir : IneGiReplacements) :
    List RepRow :=
  let cities_pos := find_matches_positions search_text ir.city.names_list ir.city.base_regex
  let estates_pos := find_matches_positions search_text ir.estate.names_list ir.estate.base_regex
  let total : List RepRow :=
    if cities_pos.length > 0 ∧ estates_pos.length > 0 then
      let duplicate_replacements : List DupRow :=
        cities_pos.filterMap (fun c =>
          (estates_pos.find? (fun e => e.end_ = c.end_)).map (fun e =>
            ⟨c.start, e.start, c.end_, c.place_name, e.place_name⟩))
      if duplicate_replacements.length > 0 then
        let resolved := duplicate_replacements.map (fun row => define_place_type row search_text)
        let unique_cities :=
          tagRows .city (cities_pos.filter (fun c => ¬ estates_pos.any (fun e => e.end_ = c.end_)))
        let unique_estates :=
          tagRows .estate (estates_pos.filter (fun e => ¬ cities_pos.any (fun c => c.end_ = e.end_)))
        unique_cities ++ unique_estates ++ resolved
      else
        tagRows .city cities_pos ++ tagRows .estate estates_pos
    else if cities_pos.length > 0 then
      tagRows .city cities_pos
    else if estates_pos.length > 0 then
      tagRows .estate estates_pos
    else
      []
  List.insertionSort (fun a b => a.start ≤ b.start) total

/-- The final replacement frame that `replace_places_by_flag` feeds to its
redaction loop, as a function of the raw input text: the search text is the
normalized copy of the input (line 120). -/
def totalReplacements (text : List Char) (ir : IneGiReplacements) : List RepRow :=
  total_replacements_of (normalizeText text) ir

/-- `replace_places_by_flag` of `clean_data.py` (lines 98–195). -/
def replace_places_by_flag (text : List Char) (ir : IneGiReplacements) :
    List Char :=
  if (searchStart cueRegex text).isNone then
    text
  else
    let rows := totalReplacements text ir
    let res := rows.foldl (applyStep text ir) ([], 0)
    res.1 ++ text.drop res.2

/-- Modelled from the spec: identical to `total_replacements_of ∘ normalizeText`
except that `define_place_type` receives the raw, unnormalized input text
("disambiguate using context immediately preceding the match in the full
unnormalized search text up to the match's end"), for comparison with the
implementation, which passes it the normalized search text. -/
def total_replacements_raw_cues (text : List Char) (ir : IneGiReplacements) :
    List RepRow :=
  let search_text := normalizeText text
  let cities_pos := find_matches_positions search_text ir.city.names_list ir.city.base_regex
  let estates_pos := find_matches_positions search_text ir.estate.names_list ir.estate.base_regex
  let total : List RepRow :=
    if cities_pos.length > 0 ∧ estates_pos.length > 0 then
      let duplicate_replacements : List DupRow :=
        cities_pos.filterMap (fun c =>
          (estates_pos.find? (fun e => e.end_ = c.end_)).map (fun e =>
            ⟨c.start, e.start, c.end_, c.place_name, e.place_name⟩))
      if duplicate_replacements.length > 0 then
        let resolved := duplicate_replacements.map (fun row => define_place_type row text)
        let unique_cities :=
          tagRows .city (cities_pos.filter (fun c => ¬ estates_pos.any (fun e => e.end_ = c.end_)))
        let unique_estates :=
          tagRows .estate (estates_pos.filter (fun e => ¬ cities_pos.any (fun c => c.end_ = e.end_)))
        unique_cities ++ unique_estates ++ resolved
      else
        tagRows .city cities_pos ++ tagRows .estate estates_pos
    else if cities_pos.length > 0 then
      tagRows .city cities_pos
    else if estates_pos.length > 0 then
      tagRows .estate estates_pos
    else
      []
  List.insertionSort (fun a b => a.start ≤ b.start) total

/-- Whether the literal character sequence `lit` is an initial segment of
`cs`. -/
def startsWithLit : List Char → List Char → Bool
  | [], _ => true
  | _ :: _, [] => false
  | c :: l, d :: cs => c = d && startsWithLit l cs

/-- Whether the literal character sequence `lit` occurs anywhere in `cs`. -/
def occursLit (lit cs : List Char) : Bool :=
  (List.range (cs.length + 1)).any (fun i => startsWithLit lit (cs.drop i))

/-- The upper-case letters of the guard's character class `[A-ZÁÉÍÓÚ]`. -/
def uppercaseLetters : List Char := ("ABCDEFGHIJKLMNOPQRSTUVWXYZÁÉÍÓÚ").toList

/-- The guard's positive condition once any leading separator has been
consumed: an uppercase letter of `[A-ZÁÉÍÓÚ]`, or one of the administrative
keywords `estado(s)` / `municipio(s)` (either case on the initial letter, as
in the source pattern `[eE]stados?|[mM]unicipios?`). -/
def startsUpperOrKeyword (cs : List Char) : Bool :=
  match cs with
  | [] => false
  | c :: rest =>
    uppercaseLetters.contains c ||
    ((c = 'e' || c = 'E') && startsWithLit ("stado".toList) rest) ||
    ((c = 'm' || c = 'M') && startsWithLit ("unicipio".toList) rest)

/-- Modelled from the spec: the sliced span "starts (after an optional
leading space/comma) with an uppercase letter or one of the administrative
keywords" — the leading separator is skipped when present but not
required. -/
def specGuardCondition (cs : List Char) : Bool :=
  match cs with
  | [] => false
  | c :: rest =>
    if c = ' ' || c = ',' then startsUpperOrKeyword rest
    else startsUpperOrKeyword cs

/-! ### Concrete scenario data -/

/-- A template that is just `{name_value}`. -/
def holeTemplate : RTemplate := [.hole]

/-- The template `" {name_value}"` (a single leading space). -/
def spaceHoleTemplate : RTemplate := [.re (.char ' '), .hole]

/-- The template `"a?{name_value}"`, used to exhibit two candidate names whose
matches share a span. -/
def optAHoleTemplate : RTemplate := [.re (.opt (.char 'a')), .hole]

/-- The template `"estados? de {name_value}"`. -/
def estadoDeTemplate : RTemplate :=
  [.re (chars ("estado".toList)), .re (.opt (.char 's')), .re (chars (" de ".toList)), .hole]

/-- The template `"[ ,]estados? de {name_value}"`. -/
def sepEstadoDeTemplate : RTemplate := .re (.cls [' ', ',']) :: estadoDeTemplate

/-- A category configuration pair from its six components. -/
def mkConfig (cn en : List (List Char)) (ct et : RTemplate) (cr er : List Char) :
    IneGiReplacements :=
  ⟨⟨cn, ct, cr⟩, ⟨en, et, er⟩⟩

/-- A configuration with empty name lists. -/
def emptyConfig : IneGiReplacements := mkConfig [] [] holeTemplate holeTemplate [] []

/-- Input text for the overlap counterexample: the city match `"ab"` and the
estate match `"bc"` overlap without sharing an end offset. -/
def overlapText : List Char := (" estado de abc").toList

def overlapConfig : IneGiReplacements :=
  mkConfig [("ab").toList] [("bc").toList] holeTemplate holeTemplate
    ("[C]").toList ("[E]").toList

/-- Input text for the normalization counterexample: in the raw text the
"municipios de" cue is spelled `"MUNICIPIOS DE"`, which the cue pattern does
not match; in the lower-cased search text it does. -/
def munText : List Char := (" estado de MUNICIPIOS DE x Campeche").toList

def munConfig : IneGiReplacements :=
  mkConfig [("campeche").toList] [("campeche").toList] spaceHoleTemplate spaceHoleTemplate
    ("[CITY]").toList ("[EST]").toList

/-- The end-to-end scenario text of the spec. -/
def jaliscoText : List Char :=
  ("El diputado viajó al Estado de Jalisco para dar un discurso.").toList

/-- The scenario configuration with the template `"estados? de {name_value}"`,
whose match covers exactly the span `"Estado de Jalisco"`. -/
def jaliscoConfigA : IneGiReplacements :=
  mkConfig [] [("jalisco").toList] holeTemplate estadoDeTemplate
    ("[CIUDAD]").toList ("[ESTADO]").toList

/-- The scenario configuration with the template `"[ ,]estados? de
{name_value}"`, whose match also covers the space before `"Estado"`. -/
def jaliscoConfigB : IneGiReplacements :=
  mkConfig [] [("jalisco").toList] holeTemplate sepEstadoDeTemplate
    ("[CIUDAD]").toList ("[ESTADO]").toList

/-- The output the spec's end-to-end scenario expects. -/
def jaliscoExpected : List Char :=
  ("El diputado viajó al [ESTADO] para dar un discurso.").toList

/-! ### Claim theorems (first group) -/

/-- C8: for every input text in which the fast-path probe regex
`[ ,](([eE]stados?|[mM]unicipios?) de|Ciudad |Distrito )` finds no
administrative-context cue, `replace_places_by_flag` returns the text
unchanged, for any configuration. -/
theorem C8_no_cue_returns_text_unchanged (text : List Char)
    (ir : IneGiReplacements) (h : searchStart cueRegex text = none) :
    replace_places_by_flag text ir = text := by
  simp [replace_places_by_flag, h]

/-- Witness for C8 at the spec's example `"hello world"`. -/
theorem C8_witness :
    replace_places_by_flag (("hello world").toList) emptyConfig =
      ("hello world").toList :=
  C8_no_cue_returns_text_unchanged (("hello world").toList) emptyConfig (by decide)

/-- C4: when the city match and the estate match share an end offset but have
different starts, `define_place_type` classifies the row as the category whose
match has the smaller start offset. -/
theorem C4_smaller_start_wins (row : DupRow) (s : List Char) :
    (row.start_city < row.start_estate → (define_place_type row s).type = .city) ∧
    (row.start_estate < row.start_city → (define_place_type row s).type = .estate) := by
  refine ⟨fun h => ?_, fun h => ?_⟩
  · simp [define_place_type, h]
  · have h' : ¬ row.start_city < row.start_estate := by omega
    simp [define_place_type, h, h']

/-- Witness for C4 at a concrete row with `start_city < start_estate`. -/
theorem C4_witness :
    (define_place_type ⟨1, 2, 5, ("a").toList, ("b").toList⟩ []).type =
      PlaceType.city :=
  (C4_smaller_start_wins ⟨1, 2, 5, ("a").toList, ("b").toList⟩ []).1 (by decide)

/-- C5: on an exact tie (equal starts), `define_place_type` classifies the row
as a city exactly when the "municipios de" cue position is strictly greater
than the "estados de" cue position (−1 standing for an absent cue), and
otherwise as an estate; with both cues absent it defaults to estate. -/
theorem C5_tie_context_disambiguation (row : DupRow) (s : List Char)
    (h : row.start_city = row.start_estate) :
    ((define_place_type row s).type = .city ↔
      cityContextPos row s > estateContextPos row s) ∧
    (cityContextPos row s = -1 ∧ estateContextPos row s = -1 →
      (define_place_type row s).type = .estate) := by
  have h1 : ¬ row.start_city < row.start_estate := by omega
  have h2 : ¬ row.start_estate < row.start_city := by omega
  constructor
  · by_cases hc : cityContextPos row s > estateContextPos row s
    · simp [define_place_type, h1, h2, hc]
    · simp [define_place_type, h1, h2, hc]
  · rintro ⟨hcc, hee⟩
    have hc : ¬ cityContextPos row s > estateContextPos row s := by
      rw [hcc, hee]; omega
    simp [define_place_type, h1, h2, hc]

/-- Witness for C5 at a concrete tie with both cues absent. -/
theorem C5_witness :
    (define_place_type ⟨0, 0, 1, ("x").toList, ("x").toList⟩ (("y").toList)).type =
      PlaceType.estate :=
  (C5_tie_context_disambiguation ⟨0, 0, 1, ("x").toList, ("x").toList⟩
    (("y").toList) rfl).2 ⟨by decide, by decide⟩

/-- C10: candidate names are interpolated into the search pattern without
regex escaping: for the name `"a.c"` (containing the metacharacter `.`) and
the template `{name_value}`, `find_matches_positions` reports the match
`(0, 3)` on the text `"abc"`, although the literal string `"a.c"` occurs
nowhere in that text. -/
theorem C10_names_are_regex_source :
    find_matches_positions (("abc").toList) [("a.c").toList] holeTemplate =
      [⟨0, 3, ("a.c").toList⟩] ∧
    occursLit (("a.c").toList) (("abc").toList) = false := by
  constructor
  · rfl
  · rfl

/-- Counterexample for C9: with the estate template `"estados? de
{name_value}"`, whose match covers exactly the span `"Estado de Jalisco"`, the
span fails the guard (it does not begin with a space or comma), so the
function returns the text unchanged rather than the redacted output the claim
states; no match covering exactly that span can pass the guard, since the
guard only inspects the sliced span itself. -/
theorem C9_counterexample :
    matchesAt0 guardRegex (("Estado de Jalisco").toList) = false ∧
    replace_places_by_flag jaliscoText jaliscoConfigA = jaliscoText ∧
    jaliscoText ≠ jaliscoExpected := by
  refine ⟨rfl, rfl, by decide⟩

/-- C9 (amended): with the template `"estados? de {name_value}"` the match
covering `"Estado de Jalisco"` is rejected by the guard and the text comes
back unchanged; with the template `"[ ,]estados? de {name_value}"`, whose
match also covers the preceding space, the guard passes and the output is
`"El diputado viajó al[ESTADO] para dar un discurso."` (the placeholder also
replaces the space). -/
theorem C9_jalisco_scenario :
    replace_places_by_flag jaliscoText jaliscoConfigA = jaliscoText ∧
    replace_places_by_flag jaliscoText jaliscoConfigB =
      ("El diputado viajó al[ESTADO] para dar un discurso.").toList := by
  refine ⟨rfl, rfl⟩

/-- Counterexample for C2: on `munText` the city and estate matches tie
exactly, and the pipeline classifies the span as a city because the
"municipios de" cue is found in the lower-cased search text; had the cues been
searched in the raw unnormalized text (where the cue is spelled `"MUNICIPIOS
DE"`), neither cue would match and the span would default to estate. -/
theorem C2_counterexample :
    totalReplacements munText munConfig = [⟨26, 35, .city⟩] ∧
    total_replacements_raw_cues munText munConfig = [⟨26, 35, .estate⟩] := by
  refine ⟨rfl, rfl⟩

/-- C2 (amended): the context cues are searched in the normalized
(lower-cased, accent-stripped) search text truncated at the match's end: the
whole match-and-resolve stage is a function of the normalized text alone, so
two raw texts with the same normalization yield the same replacement set. -/
theorem C2_cues_searched_in_normalized_text (t1 t2 : List Char)
    (ir : IneGiReplacements) (h : normalizeText t1 = normalizeText t2) :
    totalReplacements t1 ir = totalReplacements t2 ir := by
  unfold totalReplacements
  rw [h]

/-- Witness for C2 (amended) on two texts differing only in letter case. -/
theorem C2_witness :
    totalReplacements (("Ab").toList) emptyConfig =
      totalReplacements (("aB").toList) emptyConfig :=
  C2_cues_searched_in_normalized_text (("Ab").toList) (("aB").toList)
    emptyConfig (by decide)

/-! ### C1: order and (non-)overlap of the final replacement set -/

/-- Whether every pair of spans in the list is non-overlapping (half-open
spans `[start, end)`). -/
def pairwiseDisjointB : List RepRow → Bool
  | [] => true
  | r :: rest =>
    rest.all (fun r' => r.end_ ≤ r'.start || r'.end_ ≤ r.start) &&
      pairwiseDisjointB rest

/-- Whether the list is ordered by `start` ascending. -/
def sortedByStartB : List RepRow → Bool
  | [] => true
  | [_] => true
  | a :: b :: rest => a.start ≤ b.start && sortedByStartB (b :: rest)

instance : IsTotal RepRow (fun a b => a.start ≤ b.start) :=
  ⟨fun a b => Nat.le_total a.start b.start⟩

instance : IsTrans RepRow (fun a b => a.start ≤ b.start) :=
  ⟨fun _ _ _ hab hbc => Nat.le_trans hab hbc⟩

/-- Counterexample for C1: on `overlapText` with `overlapConfig` the final
replacement set contains the spans `[11, 13)` (city `"ab"`) and `[12, 14)`
(estate `"bc"`), which overlap: nothing deduplicates matches whose end offsets
differ, so the claimed invariant fails. -/
theorem C1_counterexample :
    ¬ (pairwiseDisjointB (totalReplacements overlapText overlapConfig) = true ∧
       sortedByStartB (totalReplacements overlapText overlapConfig) = true) := by
  intro h
  exact absurd h.1 (by decide)

/-- C1 (amended): the final replacement set that `replace_places_by_flag`
feeds to its redaction loop is ordered by `start` ascending (but its spans
need not be pairwise non-overlapping: matches with distinct end offsets are
never compared). -/
theorem C1_sorted_by_start (text : List Char) (ir : IneGiReplacements) :
    List.Sorted (fun a b : RepRow => a.start ≤ b.start)
      (totalReplacements text ir) := by
  unfold totalReplacements total_replacements_of
  exact List.sorted_insertionSort _ _

/-! ### C6: the false-positive guard -/

/-- `lengths` of a concatenation is nonempty exactly when the first factor
admits a match length after which the second factor also matches. -/
theorem lengths_seq_ne_nil {r1 r2 : Regex} {cs : List Char} :
    lengths (.seq r1 r2) cs ≠ [] ↔
      ∃ l1 ∈ lengths r1 cs, lengths r2 (cs.drop l1) ≠ [] := by
  simp only [lengths, ne_eq, List.flatMap_eq_nil_iff, List.map_eq_nil_iff]
  push_neg
  rfl

/-- `lengths` of an alternation is nonempty exactly when one branch's is. -/
theorem lengths_alt_ne_nil {r1 r2 : Regex} {cs : List Char} :
    lengths (.alt r1 r2) cs ≠ [] ↔
      lengths r1 cs ≠ [] ∨ lengths r2 cs ≠ [] := by
  simp only [lengths, ne_eq, List.append_eq_nil]
  tauto

/-- A literal regex matches exactly when the literal is an initial segment. -/
theorem lengths_chars_ne_nil :
    ∀ (lit cs : List Char), lengths (chars lit) cs ≠ [] ↔ startsWithLit lit cs = true
  | [], cs => by simp [chars, lengths, startsWithLit]
  | c :: l, cs => by
    rw [chars, List.foldr_cons, show List.foldr _ _ l = chars l from rfl]
    rw [lengths_seq_ne_nil]
    cases cs with
    | nil => simp [lengths, startsWithLit]
    | cons d rest =>
      by_cases h : d = c
      · subst h
        rw [show startsWithLit (d :: l) (d :: rest) = startsWithLit l rest by
          simp [startsWithLit]]
        constructor
        · rintro ⟨l1, hl1, hne⟩
          have hl1' : l1 = 1 := by simpa [lengths] using hl1
          subst hl1'
          simpa [lengths_chars_ne_nil l rest] using hne
        · intro hs
          refine ⟨1, by simp [lengths], ?_⟩
          simpa [lengths_chars_ne_nil l rest] using hs
      · simp [lengths, h, startsWithLit, Ne.symm h]

/-- If the code's guard regex (mandatory leading space/comma) matches the
sliced span, then the spec's condition (optional leading space/comma) holds of
it as well. -/
theorem specGuard_of_codeGuard {cs : List Char}
    (h : matchesAt0 guardRegex cs = true) : specGuardCondition cs = true := by
  have h' : lengths guardRegex cs ≠ [] := by
    intro hnil
    rw [matchesAt0, hnil] at h
    simp at h
  rw [guardRegex, lengths_seq_ne_nil] at h'
  obtain ⟨l1, hl1, hrest⟩ := h'
  cases cs with
  | nil => simp [lengths] at hl1
  | cons c rest =>
    simp only [lengths] at hl1
    by_cases hc : c ∈ [' ', ',']
    · rw [if_pos hc] at hl1
      simp only [List.mem_singleton] at hl1
      subst hl1
      simp only [List.drop_succ_cons, List.drop_zero] at hrest
      have hx : startsUpperOrKeyword rest = true := by
        rw [lengths_alt_ne_nil, lengths_alt_ne_nil] at hrest
        rcases hrest with he | hm | hu
        · rw [lengths_seq_ne_nil] at he
          obtain ⟨l2, hl2, he2⟩ := he
          cases rest with
          | nil => simp [lengths] at hl2
          | cons e r2 =>
            simp only [lengths] at hl2
            by_cases hce : e ∈ ['e', 'E']
            · rw [if_pos hce] at hl2
              simp only [List.mem_singleton] at hl2
              subst hl2
              simp only [List.drop_succ_cons, List.drop_zero] at he2
              rw [lengths_seq_ne_nil] at he2
              obtain ⟨l3, hl3, _⟩ := he2
              have hst : startsWithLit ("stado".toList) r2 = true :=
                (lengths_chars_ne_nil _ _).mp (List.ne_nil_of_mem hl3)
              simp only [List.mem_cons, List.mem_singleton, List.not_mem_nil,
                or_false] at hce
              rcases hce with hce | hce <;> subst hce <;>
                simp [startsUpperOrKeyword, hst] <;> exact Or.inr hst
            · rw [if_neg hce] at hl2
              cases hl2
        · rw [lengths_seq_ne_nil] at hm
          obtain ⟨l2, hl2, hm2⟩ := hm
          cases rest with
          | nil => simp [lengths] at hl2
          | cons m r2 =>
            simp only [lengths] at hl2
            by_cases hcm : m ∈ ['m', 'M']
            · rw [if_pos hcm] at hl2
              simp only [List.mem_singleton] at hl2
              subst hl2
              simp only [List.drop_succ_cons, List.drop_zero] at hm2
              rw [lengths_seq_ne_nil] at hm2
              obtain ⟨l3, hl3, _⟩ := hm2
              have hst : startsWithLit ("unicipio".toList) r2 = true :=
                (lengths_chars_ne_nil _ _).mp (List.ne_nil_of_mem hl3)
              simp only [List.mem_cons, List.mem_singleton, List.not_mem_nil,
                or_false] at hcm
              rcases hcm with hcm | hcm <;> subst hcm <;>
                simp [startsUpperOrKeyword, hst] <;> exact Or.inr hst
            · rw [if_neg hcm] at hl2
              cases hl2
        · cases rest with
          | nil => simp [lengths] at hu
          | cons u r2 =>
            simp only [lengths] at hu
            by_cases hcu : u ∈ ("ABCDEFGHIJKLMNOPQRSTUVWXYZÁÉÍÓÚ".toList)
            · simp [startsUpperOrKeyword, uppercaseLetters]
              exact Or.inl (Or.inl (by simpa using hcu))
            · rw [if_neg hcu] at hu
              exact absurd rfl hu
      simp only [List.mem_cons, List.mem_singleton, List.not_mem_nil,
        or_false] at hc
      rcases hc with hc | hc <;> simp [specGuardCondition, hc, hx]
    · rw [if_neg hc] at hl1
      cases hl1

/-- C6: a replacement span whose original-text slice does not start, after an
optional leading space or comma, with an uppercase letter or an
administrative keyword is left unredacted: the loop step appends the original
text up to the span's end (which contains the span's slice unchanged) and no
placeholder is inserted. -/
theorem C6_guard_keeps_original (text : List Char) (ir : IneGiReplacements)
    (acc : List Char × Nat) (row : RepRow)
    (h : specGuardCondition (pySlice text row.start row.end_) = false) :
    applyStep text ir acc row =
      (acc.1 ++ pySlice text acc.2 row.end_, row.end_) := by
  have hg : matchesAt0 guardRegex (pySlice text row.start row.end_) = false := by
    by_contra hb
    rw [Bool.not_eq_false] at hb
    rw [specGuard_of_codeGuard hb] at h
    cases h
  simp [applyStep, hg]

/-- Witness for C6: the span `[0, 1)` of the text `"xy"` slices to `"x"`,
which fails the spec condition; the step appends it unchanged. -/
theorem C6_witness :
    applyStep (("xy").toList) emptyConfig ([], 0) ⟨0, 1, .city⟩ =
      ((("x").toList), 1) :=
  C6_guard_keeps_original (("xy").toList) emptyConfig ([], 0) ⟨0, 1, .city⟩
    (by decide)

/-! ### C3 and C7: the end-offset dictionary of `find_matches_positions` -/

/-- The start offset recorded in the dictionary under end offset `e`. -/
def lookupStart (d : List (Nat × MatchPos)) (e : Nat) : Option Nat :=
  (List.lookup e d).map (fun v => v.start)

/-- The start offsets of the spans of `spans` that end at `e`. -/
def startsAt (spans : List (Nat × Nat)) (e : Nat) : List Nat :=
  spans.filterMap (fun sp => if sp.2 = e then some sp.1 else none)

/-- Running minimum of a list of starts, seeded with an optional start. -/
def foldMin (o : Option Nat) (l : List Nat) : Option Nat :=
  l.foldl (fun acc s => some (match acc with | none => s | some a => min a s)) o

/-- The start offsets of all matches of all candidate names that end at `e`. -/
def allMatchStarts (search_text : List Char) (tmpl : RTemplate)
    (names : List (List Char)) (e : Nat) : List Nat :=
  names.flatMap (fun n => startsAt (finditer (instantiate tmpl n) search_text) e)

/-- The start offset recorded at end offset `e` in a list of matches. -/
def endStart (l : List MatchPos) (e : Nat) : Option Nat :=
  (l.find? (fun m => m.end_ == e)).map (fun m => m.start)

theorem lookup_insertMatch_self (d : List (Nat × MatchPos)) (k : Nat)
    (v : MatchPos) : List.lookup k (insertMatch d k v) = some v := by
  induction d with
  | nil => simp [insertMatch]
  | cons p rest ih =>
    obtain ⟨k', v'⟩ := p
    by_cases h : k' = k
    · subst h
      simp [insertMatch]
    · have hb : (k == k') = false := beq_eq_false_iff_ne.mpr (Ne.symm h)
      simp [insertMatch, h, List.lookup_cons, hb, ih]

theorem lookup_insertMatch_ne (d : List (Nat × MatchPos)) (k : Nat)
    (v : MatchPos) (e : Nat) (h : e ≠ k) :
    List.lookup e (insertMatch d k v) = List.lookup e d := by
  have hb : (e == k) = false := beq_eq_false_iff_ne.mpr h
  induction d with
  | nil => simp [insertMatch, List.lookup_cons, hb]
  | cons p rest ih =>
    obtain ⟨k', v'⟩ := p
    by_cases hk : k' = k
    · subst hk
      simp [insertMatch, List.lookup_cons, hb]
    · simp [insertMatch, hk, List.lookup_cons, ih]

/-- Effect of one `processMatch` step on the recorded start at `e`: at the
step's own end offset the recorded start becomes the minimum of the old one
and the new one (exact ties replace, which leaves the start unchanged);
other end offsets are untouched. -/
theorem lookupStart_processMatch (name : List Char) (d : List (Nat × MatchPos))
    (sp : Nat × Nat) (e : Nat) :
    lookupStart (processMatch name d sp) e =
      if sp.2 = e then
        some (match lookupStart d e with
          | none => sp.1
          | some a => min a sp.1)
      else lookupStart d e := by
  obtain ⟨s, e'⟩ := sp
  simp only [processMatch]
  by_cases he : e' = e
  · subst he
    rw [if_pos rfl]
    cases hl : List.lookup e' d with
    | none =>
      simp [lookupStart, hl, lookup_insertMatch_self]
    | some ex =>
      by_cases hgt : s > ex.start
      · simp [lookupStart, hl, hgt, Nat.min_eq_left (Nat.le_of_lt hgt)]
      · simp [lookupStart, hl, hgt, lookup_insertMatch_self,
          Nat.min_eq_right (Nat.le_of_not_lt hgt)]
  · rw [if_neg he]
    cases hl : List.lookup e' d with
    | none =>
      simp [lookupStart, hl, lookup_insertMatch_ne _ _ _ _ (Ne.symm he)]
    | some ex =>
      by_cases hgt : s > ex.start
      · simp [lookupStart, hl, hgt]
      · simp [lookupStart, hl, hgt, lookup_insertMatch_ne _ _ _ _ (Ne.symm he)]

theorem foldMin_append (o : Option Nat) (l1 l2 : List Nat) :
    foldMin o (l1 ++ l2) = foldMin (foldMin o l1) l2 := by
  simp [foldMin, List.foldl_append]

/-- Folding a whole span list: the recorded start at `e` is the running
minimum over the spans ending at `e`. -/
theorem lookupStart_foldl_processMatch (name : List Char)
    (spans : List (Nat × Nat)) (d : List (Nat × MatchPos)) (e : Nat) :
    lookupStart (spans.foldl (processMatch name) d) e =
      foldMin (lookupStart d e) (startsAt spans e) := by
  induction spans generalizing d with
  | nil => rfl
  | cons sp rest ih =>
    rw [List.foldl_cons, ih, lookupStart_processMatch]
    by_cases h : sp.2 = e
    · rw [if_pos h]
      rw [show startsAt (sp :: rest) e = sp.1 :: startsAt rest e by
        simp [startsAt, List.filterMap_cons, h]]
      rfl
    · rw [if_neg h]
      rw [show startsAt (sp :: rest) e = startsAt rest e by
        simp [startsAt, List.filterMap_cons, h]]

/-- The dictionary built by `find_matches_positions` records, at each end
offset, the minimum start over all matches of all candidate names ending
there. -/
theorem lookupStart_find_matches_dict (search_text : List Char)
    (tmpl : RTemplate) (names : List (List Char)) (e : Nat) :
    lookupStart (find_matches_dict search_text names tmpl) e =
      foldMin none (allMatchStarts search_text tmpl names e) := by
  suffices H : ∀ (ns : List (List Char)) (d : List (Nat × MatchPos)),
      lookupStart (ns.foldl (fun d value_str =>
        (finditer (instantiate tmpl value_str) search_text).foldl
          (processMatch value_str) d) d) e =
        foldMin (lookupStart d e) (allMatchStarts search_text tmpl ns e) by
    exact H names []
  intro ns
  induction ns with
  | nil => intro d; rfl
  | cons n rest ih =>
    intro d
    rw [List.foldl_cons, ih, lookupStart_foldl_processMatch]
    rw [show allMatchStarts search_text tmpl (n :: rest) e =
      startsAt (finditer (instantiate tmpl n) search_text) e ++
        allMatchStarts search_text tmpl rest e by
      simp [allMatchStarts]]
    rw [foldMin_append]

theorem foldMin_some (a : Nat) (l : List Nat) :
    foldMin (some a) l = some (l.foldl min a) := by
  induction l generalizing a with
  | nil => rfl
  | cons x t ih =>
    rw [foldMin, List.foldl_cons, List.foldl_cons]
    exact ih (min a x)

theorem foldl_min_le (l : List Nat) (a : Nat) : l.foldl min a ≤ a := by
  induction l generalizing a with
  | nil => exact Nat.le_refl a
  | cons x t ih =>
    rw [List.foldl_cons]
    exact Nat.le_trans (ih (min a x)) (Nat.min_le_left a x)

theorem foldl_min_le_mem (l : List Nat) (a : Nat) :
    ∀ s ∈ l, l.foldl min a ≤ s := by
  induction l generalizing a with
  | nil => intro s hs; cases hs
  | cons x t ih =>
    intro s hs
    rw [List.foldl_cons]
    rcases List.mem_cons.mp hs with rfl | hs
    · exact Nat.le_trans (foldl_min_le t (min a s)) (Nat.min_le_right a s)
    · exact ih (min a x) s hs

theorem foldl_min_mem (l : List Nat) (a : Nat) :
    l.foldl min a = a ∨ l.foldl min a ∈ l := by
  induction l generalizing a with
  | nil => exact Or.inl rfl
  | cons x t ih =>
    rw [List.foldl_cons]
    rcases ih (min a x) with h | h
    · rcases Nat.le_total a x with hax | hxa
      · left
        rw [h]
        exact Nat.min_eq_left hax
      · right
        rw [h, Nat.min_eq_right hxa]
        exact List.mem_cons_self x t
    · exact Or.inr (List.mem_cons_of_mem x h)

/-- Characterization of the running minimum seeded with `none`: it is `none`
exactly on the empty list, and otherwise a member that bounds every member
from below. -/
theorem foldMin_none_spec (l : List Nat) :
    (foldMin none l = none ↔ l = []) ∧
    (∀ m, foldMin none l = some m → m ∈ l ∧ ∀ s ∈ l, m ≤ s) := by
  cases l with
  | nil => simp [foldMin]
  | cons x t =>
    constructor
    · constructor
      · intro h
        rw [show foldMin none (x :: t) = foldMin (some x) t from rfl,
          foldMin_some] at h
        cases h
      · intro h
        cases h
    · intro m hm
      rw [show foldMin none (x :: t) = foldMin (some x) t from rfl,
        foldMin_some] at hm
      injection hm with hm
      subst hm
      constructor
      · rcases foldl_min_mem t x with h | h
        · rw [h]
          exact List.mem_cons_self x t
        · exact List.mem_cons_of_mem x h
      · intro s hs
        rcases List.mem_cons.mp hs with rfl | hs
        · exact foldl_min_le t s
        · exact foldl_min_le_mem t x s hs

/-- The running minimum only depends on the membership of the list. -/
theorem foldMin_none_congr (l1 l2 : List Nat) (h : ∀ s, s ∈ l1 ↔ s ∈ l2) :
    foldMin none l1 = foldMin none l2 := by
  cases h1 : foldMin none l1 with
  | none =>
    have he : l1 = [] := (foldMin_none_spec l1).1.mp h1
    subst he
    cases h2 : foldMin none l2 with
    | none => rfl
    | some m =>
      have hm := (foldMin_none_spec l2).2 m h2
      exact absurd ((h m).mpr hm.1) (List.not_mem_nil m)
  | some m =>
    have hm := (foldMin_none_spec l1).2 m h1
    cases h2 : foldMin none l2 with
    | none =>
      have he : l2 = [] := (foldMin_none_spec l2).1.mp h2
      subst he
      exact absurd ((h m).mp hm.1) (List.not_mem_nil m)
    | some m' =>
      have hm' := (foldMin_none_spec l2).2 m' h2
      have hle : m ≤ m' := hm.2 m' ((h m').mpr hm'.1)
      have hge : m' ≤ m := hm'.2 m ((h m).mp hm.1)
      rw [Nat.le_antisymm hle hge]

theorem mem_insertMatch {d : List (Nat × MatchPos)} {k : Nat} {v : MatchPos}
    {q : Nat × MatchPos} (h : q ∈ insertMatch d k v) : q = (k, v) ∨ q ∈ d := by
  induction d with
  | nil => simpa [insertMatch] using h
  | cons p rest ih =>
    obtain ⟨k', v'⟩ := p
    by_cases hk : k' = k
    · subst hk
      rw [insertMatch, if_pos rfl] at h
      rcases List.mem_cons.mp h with h | h
      · exact Or.inl h
      · exact Or.inr (List.mem_cons_of_mem _ h)
    · rw [insertMatch, if_neg hk] at h
      rcases List.mem_cons.mp h with h | h
      · exact Or.inr (h ▸ List.mem_cons_self _ _)
      · rcases ih h with h | h
        · exact Or.inl h
        · exact Or.inr (List.mem_cons_of_mem _ h)

theorem mem_processMatch {name : List Char} {d : List (Nat × MatchPos)}
    {sp : Nat × Nat} {q : Nat × MatchPos} (h : q ∈ processMatch name d sp) :
    q = (sp.2, ⟨sp.1, sp.2, name⟩) ∨ q ∈ d := by
  simp only [processMatch] at h
  split at h
  · split at h
    · exact Or.inr h
    · exact mem_insertMatch h
  · exact mem_insertMatch h

/-- Every entry put into the dictionary by folding a span list either was
already there or records one of the folded spans for the folded name. -/
theorem mem_foldl_processMatch {name : List Char} {spans : List (Nat × Nat)}
    {d : List (Nat × MatchPos)} {q : Nat × MatchPos}
    (h : q ∈ spans.foldl (processMatch name) d) :
    q ∈ d ∨ ∃ sp ∈ spans, q = (sp.2, ⟨sp.1, sp.2, name⟩) := by
  induction spans generalizing d with
  | nil => exact Or.inl h
  | cons sp rest ih =>
    rw [List.foldl_cons] at h
    rcases ih h with h | ⟨sp', hsp', hq⟩
    · rcases mem_processMatch h with h | h
      · exact Or.inr ⟨sp, List.mem_cons_self _ _, h⟩
      · exact Or.inl h
    · exact Or.inr ⟨sp', List.mem_cons_of_mem _ hsp', hq⟩

/-- Every dictionary entry is keyed by its own end offset and records an
actual match of one of the candidate names. -/
theorem find_matches_dict_origin (search_text : List Char)
    (names : List (List Char)) (tmpl : RTemplate) :
    ∀ q ∈ find_matches_dict search_text names tmpl,
      q.2.end_ = q.1 ∧ ∃ name ∈ names, q.2.place_name = name ∧
        (q.2.start, q.2.end_) ∈ finditer (instantiate tmpl name) search_text := by
  suffices H : ∀ (ns : List (List Char)) (d : List (Nat × MatchPos)),
      (∀ n ∈ ns, n ∈ names) →
      (∀ q ∈ d, q.2.end_ = q.1 ∧ ∃ name ∈ names, q.2.place_name = name ∧
        (q.2.start, q.2.end_) ∈ finditer (instantiate tmpl name) search_text) →
      ∀ q ∈ ns.foldl (fun d value_str =>
          (finditer (instantiate tmpl value_str) search_text).foldl
            (processMatch value_str) d) d,
        q.2.end_ = q.1 ∧ ∃ name ∈ names, q.2.place_name = name ∧
          (q.2.start, q.2.end_) ∈ finditer (instantiate tmpl name) search_text by
    exact H names [] (fun n hn => hn) (fun q hq => absurd hq (List.not_mem_nil q))
  intro ns
  induction ns with
  | nil => intro d _ hd q hq; exact hd q hq
  | cons n rest ih =>
    intro d hsub hd q hq
    rw [List.foldl_cons] at hq
    refine ih _ (fun m hm => hsub m (List.mem_cons_of_mem _ hm)) ?_ q hq
    intro q' hq'
    rcases mem_foldl_processMatch hq' with hq' | ⟨sp, hsp, rfl⟩
    · exact hd q' hq'
    · exact ⟨rfl, n, hsub n (List.mem_cons_self _ _), rfl, hsp⟩

/-- `insertMatch` preserves distinctness of the dictionary keys. -/
theorem insertMatch_pairwise {d : List (Nat × MatchPos)} {k : Nat}
    {v : MatchPos} (h : List.Pairwise (fun p q => p.1 ≠ q.1) d) :
    List.Pairwise (fun p q => p.1 ≠ q.1) (insertMatch d k v) := by
  induction d with
  | nil => simp [insertMatch]
  | cons p rest ih =>
    obtain ⟨k', v'⟩ := p
    rw [List.pairwise_cons] at h
    by_cases hk : k' = k
    · subst hk
      rw [insertMatch, if_pos rfl, List.pairwise_cons]
      exact ⟨h.1, h.2⟩
    · rw [insertMatch, if_neg hk, List.pairwise_cons]
      constructor
      · intro q hq
        rcases mem_insertMatch hq with rfl | hq
        · exact hk
        · exact h.1 q hq
      · exact ih h.2

theorem processMatch_pairwise {name : List Char} {d : List (Nat × MatchPos)}
    {sp : Nat × Nat} (h : List.Pairwise (fun p q => p.1 ≠ q.1) d) :
    List.Pairwise (fun p q => p.1 ≠ q.1) (processMatch name d sp) := by
  simp only [processMatch]
  split
  · split
    · exact h
    · exact insertMatch_pairwise h
  · exact insertMatch_pairwise h

/-- The dictionary built by `find_matches_positions` has pairwise distinct
keys. -/
theorem find_matches_dict_pairwise (search_text : List Char)
    (names : List (List Char)) (tmpl : RTemplate) :
    List.Pairwise (fun p q => p.1 ≠ q.1)
      (find_matches_dict search_text names tmpl) := by
  suffices H : ∀ (ns : List (List Char)) (d : List (Nat × MatchPos)),
      List.Pairwise (fun p q => p.1 ≠ q.1) d →
      List.Pairwise (fun p q => p.1 ≠ q.1)
        (ns.foldl (fun d value_str =>
          (finditer (instantiate tmpl value_str) search_text).foldl
            (processMatch value_str) d) d) by
    exact H names [] List.Pairwise.nil
  intro ns
  induction ns with
  | nil => intro d hd; exact hd
  | cons n rest ih =>
    intro d hd
    rw [List.foldl_cons]
    refine ih _ ?_
    clear ih
    induction finditer (instantiate tmpl n) search_text generalizing d with
    | nil => exact hd
    | cons sp spans ihs =>
      rw [List.foldl_cons]
      exact ihs _ (processMatch_pairwise hd)

/-- In a dictionary with pairwise distinct keys, membership determines the
lookup. -/
theorem lookup_eq_of_mem {d : List (Nat × MatchPos)}
    (hd : List.Pairwise (fun p q => p.1 ≠ q.1) d) {k : Nat} {v : MatchPos}
    (h : (k, v) ∈ d) : List.lookup k d = some v := by
  induction d with
  | nil => cases h
  | cons p rest ih =>
    obtain ⟨k', v'⟩ := p
    rw [List.pairwise_cons] at hd
    rcases List.mem_cons.mp h with heq | hmem
    · rw [show k = k' from congrArg Prod.fst heq,
        show v = v' from congrArg Prod.snd heq]
      simp [List.lookup_cons]
    · by_cases hk : k = k'
      · subst hk
        exact absurd rfl (hd.1 (k, v) hmem)
      · have hb : (k == k') = false := beq_eq_false_iff_ne.mpr hk
        rw [List.lookup_cons, hb]
        exact ih hd.2 hmem

/-- On a dictionary whose entries are keyed by their end offsets, looking up
an end offset among the values agrees with the dictionary lookup. -/
theorem endStart_eq_lookupStart {d : List (Nat × MatchPos)} (e : Nat)
    (h : ∀ q ∈ d, (q : Nat × MatchPos).2.end_ = q.1) :
    endStart (d.map (fun p => p.2)) e = lookupStart d e := by
  induction d with
  | nil => rfl
  | cons p rest ih =>
    obtain ⟨k, v⟩ := p
    have hv : v.end_ = k := h (k, v) (List.mem_cons_self _ _)
    by_cases hk : k = e
    · subst hk
      have hb : (v.end_ == k) = true := beq_iff_eq.mpr hv
      have hb' : (k == k) = true := beq_iff_eq.mpr rfl
      simp [endStart, lookupStart, List.lookup_cons, hb, hb', List.find?, hv]
    · have hb : (v.end_ == e) = false := beq_eq_false_iff_ne.mpr (hv ▸ hk)
      have hb' : (e == k) = false := beq_eq_false_iff_ne.mpr (Ne.symm hk)
      simp only [List.map_cons, endStart, List.find?, hb, lookupStart,
        List.lookup_cons, hb']
      exact ih (fun q hq => h q (List.mem_cons_of_mem _ hq))

/-- C3: `find_matches_positions` returns at most one match per end offset
(the returned matches have pairwise distinct end offsets); every returned
entry records an actual match of one of the candidate names; and the recorded
start at each end offset is least among the starts of all matches of all
candidate names ending there. -/
theorem C3_one_match_per_end_offset (search_text : List Char)
    (names : List (List Char)) (tmpl : RTemplate) :
    List.Pairwise (fun m m' : MatchPos => m.end_ ≠ m'.end_)
      (find_matches_positions search_text names tmpl) ∧
    (∀ m ∈ find_matches_positions search_text names tmpl,
      ∃ name ∈ names, m.place_name = name ∧
        (m.start, m.end_) ∈ finditer (instantiate tmpl name) search_text) ∧
    (∀ m ∈ find_matches_positions search_text names tmpl,
      ∀ name ∈ names, ∀ sp ∈ finditer (instantiate tmpl name) search_text,
        sp.2 = m.end_ → m.start ≤ sp.1) := by
  have horig := find_matches_dict_origin search_text names tmpl
  have hpw := find_matches_dict_pairwise search_text names tmpl
  refine ⟨?_, ?_, ?_⟩
  · rw [find_matches_positions, List.pairwise_map]
    refine List.Pairwise.imp_of_mem ?_ hpw
    intro p q hp hq hne
    rw [(horig p hp).1, (horig q hq).1]
    exact hne
  · intro m hm
    rw [find_matches_positions, List.mem_map] at hm
    obtain ⟨p, hp, rfl⟩ := hm
    exact (horig p hp).2
  · intro m hm name hname sp hsp hend
    rw [find_matches_positions, List.mem_map] at hm
    obtain ⟨p, hp, rfl⟩ := hm
    have hkey : p.2.end_ = p.1 := (horig p hp).1
    have hlook : List.lookup p.1 (find_matches_dict search_text names tmpl) =
        some p.2 := lookup_eq_of_mem hpw hp
    have hls : lookupStart (find_matches_dict search_text names tmpl)
        p.2.end_ = some p.2.start := by
      rw [hkey, lookupStart, hlook]
      rfl
    rw [lookupStart_find_matches_dict] at hls
    refine ((foldMin_none_spec _).2 _ hls).2 sp.1 ?_
    rw [allMatchStarts, List.mem_flatMap]
    refine ⟨name, hname, ?_⟩
    rw [startsAt, List.mem_filterMap]
    exact ⟨sp, hsp, by rw [if_pos hend]⟩

/-- Witness for C3: on the text `"ab"` with names `["b", "ab"]` and the
template `"a?{name_value}"`, the returned match at end offset 2 starts at 0,
which is minimal among the matches ending there. -/
theorem C3_witness :
    (⟨0, 2, ("ab").toList⟩ : MatchPos) ∈
      find_matches_positions (("ab").toList)
        [("b").toList, ("ab").toList] optAHoleTemplate ∧
    (⟨0, 2, ("ab").toList⟩ : MatchPos).start ≤ 0 :=
  ⟨by decide,
    (C3_one_match_per_end_offset (("ab").toList)
        [("b").toList, ("ab").toList] optAHoleTemplate).2.2
      ⟨0, 2, ("ab").toList⟩ (by decide) (("b").toList) (by decide)
      (0, 2) (by decide) rfl⟩

/-- Counterexample for C7: on the text `"ab"` with the template
`"a?{name_value}"`, the names `"b"` and `"ab"` produce matches with the same
start and end; the later-processed name overwrites the earlier one, so the
two orders of the name list return different results (they disagree on the
recorded `place_name`). -/
theorem C7_counterexample :
    find_matches_positions (("ab").toList) [("b").toList, ("ab").toList]
        optAHoleTemplate ≠
      find_matches_positions (("ab").toList) [("ab").toList, ("b").toList]
        optAHoleTemplate := by
  decide

/-- C7 (amended): permuting the candidate name list does not change which end
offsets are present nor the recorded start offset at each end offset (the
recorded start is the minimum over all candidates); only the recorded name at
an exact start tie and the order of the returned list can differ. -/
theorem C7_perm_invariant_start (search_text : List Char) (tmpl : RTemplate)
    (l1 l2 : List (List Char)) (h : List.Perm l1 l2) (e : Nat) :
    endStart (find_matches_positions search_text l1 tmpl) e =
      endStart (find_matches_positions search_text l2 tmpl) e := by
  rw [find_matches_positions,
    endStart_eq_lookupStart e
      (fun q hq => (find_matches_dict_origin search_text l1 tmpl q hq).1),
    show find_matches_positions search_text l2 tmpl =
      (find_matches_dict search_text l2 tmpl).map (fun p => p.2) from rfl,
    endStart_eq_lookupStart e
      (fun q hq => (find_matches_dict_origin search_text l2 tmpl q hq).1),
    lookupStart_find_matches_dict, lookupStart_find_matches_dict]
  apply foldMin_none_congr
  intro s
  rw [allMatchStarts, allMatchStarts, List.mem_flatMap, List.mem_flatMap]
  constructor
  · rintro ⟨n, hn, hs⟩
    exact ⟨n, h.mem_iff.mp hn, hs⟩
  · rintro ⟨n, hn, hs⟩
    exact ⟨n, h.mem_iff.mpr hn, hs⟩

/-- Witness for C7 (amended) at the two orders of the counterexample's name
list: the recorded start at end offset 2 agrees. -/
theorem C7_witness :
    endStart (find_matches_positions (("ab").toList)
        [("b").toList, ("ab").toList] optAHoleTemplate) 2 =
      endStart (find_matches_positions (("ab").toList)
        [("ab").toList, ("b").toList] optAHoleTemplate) 2 :=
  C7_perm_invariant_start (("ab").toList) optAHoleTemplate
    [("b").toList, ("ab").toList] [("ab").toList, ("b").toList]
    (List.Perm.swap (("ab").toList) (("b").toList) []) 2

end CleanData
